import Mathlib

/-!
Shallow embedding of the SLQ core in `src/include/_lanczos/lanczos.h`
(`lanczos_recurrence`, `lanczos_quadrature`, `slq`).

Modelling conventions:
* The scalar template parameter `F` (an IEEE floating-point type) is
  instantiated with `ℚ`; `std::sqrt` / Eigen's `norm()` are modelled by
  `ratSqrt`, which is exact on perfect squares (every concrete input used
  below has perfect-square norms, so on those inputs `ratSqrt` agrees with
  the mathematical square root).
* Raw pointer buffers (`q`, `alpha`, `beta`, the column-major basis `V`)
  are modelled as total functions `ℕ → ℚ` (resp. `ℕ → ℕ → ℚ` indexed by
  column then row); a write is `Function.update`.  The *allocated length*
  of a buffer is tracked separately (`slqAlphaLen`, `slqBetaLen`), since a
  C++ write past the allocation is still a state change of the model.
* The recurrence state additionally records the list of indices written to
  `alpha` / `beta` and the list of basis columns written, instrumenting
  exactly the three store sites of the source loop.
-/

set_option allowUnsafeReducibility true in
attribute [semireducible] Rat.mul Rat.add Rat.sub Rat.div Rat.inv Rat.neg Rat.normalize

namespace Pyimate

/-- Fuel-driven integer square root (`⌊√n⌋` once the fuel covers the
recursion depth), via the recurrence `isqrt n = 2r or 2r+1, r = isqrt (n/4)`.
Structural recursion on the fuel keeps it kernel-reducible. -/
def isqrtFuel : ℕ → ℕ → ℕ
  | 0, _ => 0
  | fuel + 1, n =>
    if n < 2 then n
    else
      let r := isqrtFuel fuel (n / 4)
      if (2 * r + 1) * (2 * r + 1) ≤ n then 2 * r + 1 else 2 * r

/-- Integer square root `⌊√n⌋` (the fuel `n` dominates the recursion depth). -/
def natSqrt (n : ℕ) : ℕ := isqrtFuel n n

/-- Model of the floating-point square root on the rational scalar model:
exact on perfect squares (numerator and denominator), rounded otherwise. -/
def ratSqrt (x : ℚ) : ℚ := (natSqrt x.num.toNat : ℚ) / (natSqrt x.den : ℚ)

/-- Dot product of the first `n` entries of two buffers (Eigen `.dot`). -/
def dotProd (n : ℕ) (u v : ℕ → ℚ) : ℚ :=
  ((List.range n).map (fun i => u i * v i)).sum

/-- Euclidean norm of the first `n` entries (Eigen `.norm()`), via `ratSqrt`. -/
def vnorm (n : ℕ) (v : ℕ → ℚ) : ℚ := ratSqrt (dotProd n v v)

/-- Eigen `v.normalized()`: a *new* vector `v / ‖v‖`; `v` is not modified. -/
def normalized (n : ℕ) (v : ℕ → ℚ) : ℕ → ℚ := fun i => v i / vnorm n v

/-- The `LinearOperator` capability: a square operator of order `n` with a
`matvec` that reads the first `n` entries of its input and (re)writes the
whole output buffer.  (`shape() = (n, n)`; the core requires rows = cols.) -/
structure LinOp where
  n : ℕ
  matvec : (ℕ → ℚ) → (ℕ → ℚ)

/-- Modelled from the spec: one modified-Gram-Schmidt pass of
`orth_vector` (from `_orthogonalize/orthogonalize.h`, which is not under
`src/`): project `v` against the `orth` most recent basis columns before
column `c`, wrapping with positive-remainder `mod` over `[0, ncv)`. -/
def orthPass (n ncv : ℕ) (Q : ℕ → ℕ → ℚ) (c orth : ℕ) (v : ℕ → ℚ) : ℕ → ℚ :=
  (List.range orth).foldl
    (fun w i =>
      let u := Q ((c + ncv - (i + 1)) % ncv)
      fun idx => w idx - dotProd n u w * u idx)
    v

/-- Modelled from the spec: `orth_vector(v, Q, c, orth, twice)` from
`_orthogonalize/orthogonalize.h` (not under `src/`): modified Gram-Schmidt
of `v` against the `orth` most recent columns, done a second time when the
final flag is set ("twice is enough"). -/
def orth_vector (n ncv : ℕ) (Q : ℕ → ℕ → ℚ) (c orth : ℕ) (twice : Bool)
    (v : ℕ → ℚ) : ℕ → ℚ :=
  if twice then orthPass n ncv Q c orth (orthPass n ncv Q c orth v)
  else orthPass n ncv Q c orth v

/-- State of the Lanczos loop in `lanczos_recurrence` (lanczos.h:40-65).
`v` is the work vector aliasing the caller's `q` buffer; `j` counts executed
loop bodies; `stopped` records that the `break` was taken;
`alphaWrites`/`betaWrites`/`colWrites` record the indices stored to
`alpha`, `beta` and the columns of `V`, at exactly the source's store sites. -/
structure LState where
  v : ℕ → ℚ
  alpha : ℕ → ℚ
  beta : ℕ → ℚ
  V : ℕ → ℕ → ℚ
  pos : ℕ × ℕ × ℕ
  j : ℕ
  stopped : Bool
  alphaWrites : List ℕ
  betaWrites : List ℕ
  colWrites : List ℕ

/-- Initial column-index triple `pos = {ncv - 1, 0, 1}` (lanczos.h:39). -/
def posInit (ncv : ℕ) : ℕ × ℕ × ℕ := (ncv - 1, 0, 1)

/-- One `std::rotate(pos, pos+1, pos+3)` followed by
`pos[2] = mod(j+2, ncv)` (lanczos.h:63-64). -/
def posNext (ncv j : ℕ) (pos : ℕ × ℕ × ℕ) : ℕ × ℕ × ℕ :=
  (pos.2.1, pos.2.2, (j + 2) % ncv)

/-- The triple held by `pos` at the start of step `j`, assuming steps
`0, …, j-1` all completed (did not break). -/
def posIter (ncv : ℕ) : ℕ → ℕ × ℕ × ℕ
  | 0 => posInit ncv
  | j + 1 => posNext ncv j (posIter ncv j)

/-- The guarded re-orthogonalization of the loop body
(`if (orth > 0) { … orth_vector(qn, Q_ref, c, orth, true); }`,
lanczos.h:50-53): when `orth > 0`, re-orthogonalize the new vector with the
twice-flag set; otherwise leave it unchanged. -/
def stepOrth (A : LinOp) (ncv orth : ℕ) (V : ℕ → ℕ → ℚ) (c : ℕ)
    (v3 : ℕ → ℚ) : ℕ → ℚ :=
  if 0 < orth then orth_vector A.n ncv V c orth true v3 else v3

/-- One body of the `for (int j = 0; j < k; ++j)` loop of
`lanczos_recurrence` (lanczos.h:40-65), returning the new state and whether
the `break` was taken.  Mirrors the source order: `v = A q_c`;
`v -= beta[j] q_p`; `alpha[j] = <q_c, v>`; `v -= alpha[j] q_c`; optional
re-orthogonalization (with the twice-flag set); `beta[j+1] = ‖v‖`; break
test; only then write column `pos[2]` and rotate `pos`. -/
def lanczosStep (A : LinOp) (k : ℕ) (residTol : ℚ) (orth ncv : ℕ)
    (s : LState) : LState × Bool :=
  let p := s.pos.1
  let c := s.pos.2.1
  let nn := s.pos.2.2
  let v1 := A.matvec (s.V c)
  let v2 := fun i => v1 i - s.beta s.j * s.V p i
  let a := dotProd A.n (s.V c) v2
  let v3 := fun i => v2 i - a * s.V c i
  let v4 := stepOrth A ncv orth s.V c v3
  let b := vnorm A.n v4
  let s1 : LState :=
    { v := v4
      alpha := Function.update s.alpha s.j a
      beta := Function.update s.beta (s.j + 1) b
      V := s.V
      pos := s.pos
      j := s.j + 1
      stopped := s.stopped
      alphaWrites := s.alphaWrites ++ [s.j]
      betaWrites := s.betaWrites ++ [s.j + 1]
      colWrites := s.colWrites }
  if b < residTol ∨ s.j + 1 = k then
    ({ s1 with stopped := true }, true)
  else
    ({ s1 with
        V := Function.update s.V nn (fun i => v4 i / b)
        pos := posNext ncv s.j s.pos
        colWrites := s.colWrites ++ [nn] }, false)

/-- The loop of `lanczos_recurrence`, by remaining iteration count. -/
def lanczosGo (A : LinOp) (k : ℕ) (residTol : ℚ) (orth ncv : ℕ) :
    ℕ → LState → LState
  | 0, s => s
  | fuel + 1, s =>
    let r := lanczosStep A k residTol orth ncv s
    if r.2 then r.1 else lanczosGo A k residTol orth ncv fuel r.1

/-- `lanczos_recurrence` (lanczos.h:12-66): `residual_tol = sqrt(n)*rtol`;
`Q.col(0) = v.normalized()` (leaving the `q` buffer itself untouched);
`pos = {ncv-1, 0, 1}`; then the loop for `j = 0, …, k-1`. -/
def lanczos_recurrence (A : LinOp) (q : ℕ → ℚ) (k : ℕ) (rtol : ℚ)
    (orth : ℕ) (alpha beta : ℕ → ℚ) (V : ℕ → ℕ → ℚ) (ncv : ℕ) : LState :=
  let residTol := ratSqrt (A.n : ℚ) * rtol
  let V0 := Function.update V 0 (normalized A.n q)
  lanczosGo A k residTol orth ncv k
    { v := q, alpha := alpha, beta := beta, V := V0, pos := posInit ncv,
      j := 0, stopped := false,
      alphaWrites := [], betaWrites := [], colWrites := [0] }

/-- Number of scalars allocated for each worker's `alpha` buffer in `slq`:
`ArrayF::Zero(lanczos_degree)` (lanczos.h:156). -/
def slqAlphaLen (lanczos_degree : ℕ) : ℕ := lanczos_degree

/-- Number of scalars allocated for each worker's `beta` buffer in `slq`:
`ArrayF::Zero(lanczos_degree)` (lanczos.h:157). -/
def slqBetaLen (lanczos_degree : ℕ) : ℕ := lanczos_degree

/-- The dynamic-schedule chunk size of `slq`:
`max(int(sqrt(nv / num_threads)), 1)` (lanczos.h:145). -/
def slqChunkSize (nv num_threads : ℕ) : ℕ := max (natSqrt (nv / num_threads)) 1

/-- Modelled from the spec: the thread-safe random bit generator
(`_random_generator/vector_generator.h`, not under `src/`).  After
`rng.initialize(num_threads, seed)` each thread id owns a disjoint
deterministic sub-stream; `rngDraw seed tid ctr` is the `ctr`-th scalar of
thread `tid`'s sub-stream.  The concrete stream function is a
representative injective choice — what matters for the claims is that a
draw is a pure function of `(seed, tid, ctr)`. -/
def rngDraw (seed tid ctr : ℕ) : ℚ := (seed : ℚ) + 10 * (tid : ℚ) + (ctr : ℚ)

/-- Modelled from the spec: `generate_isotropic<0,F>(rng, q.data(), m, tid)`
(lanczos.h:167, implementation not under `src/`): fill the first `m` entries
of `q` with the next `m` draws of thread `tid`'s sub-stream, advancing the
sub-stream counter by `m`. -/
def generate_isotropic (seed tid m ctr : ℕ) (q : ℕ → ℚ) : (ℕ → ℚ) × ℕ :=
  (fun i => if i < m then rngDraw seed tid (ctr + i) else q i, ctr + m)

/-- The per-probe data handed to the callback
`f(i, q.data(), Q.data(), nodes.data(), weights.data())` (lanczos.h:176). -/
structure ProbeOut where
  qOut : ℕ → ℚ
  alphaOut : ℕ → ℚ
  betaOut : ℕ → ℚ
  nodesOut : ℕ → ℚ
  weightsOut : ℕ → ℚ

/-- One worker's scratch, allocated once per thread before the probe loop
(lanczos.h:151-159): RNG sub-stream counter and the `q`, `Q`, `alpha`,
`beta` buffers reused across the probes assigned to this thread. -/
structure TCore where
  ctr : ℕ
  qBuf : ℕ → ℚ
  QBuf : ℕ → ℕ → ℚ
  alphaBuf : ℕ → ℚ
  betaBuf : ℕ → ℚ

/-- A worker's full state: scratch plus the list of callback invocations
`(i, delivered data)` it has performed so far. -/
structure TState where
  core : TCore
  outs : List (ℕ × ProbeOut)

/-- Zero-initialized per-thread scratch (`ArrayF::Zero`, lanczos.h:154-159).
The buffers are zeroed here, once per thread — not once per probe. -/
def slqInitCore : TCore :=
  { ctr := 0, qBuf := fun _ => 0, QBuf := fun _ _ => 0,
    alphaBuf := fun _ => 0, betaBuf := fun _ => 0 }

/-- The body of `slq`'s probe loop (lanczos.h:163-177) acting on a worker's
scratch: generate `q`, run the Lanczos recurrence in place on the scratch
buffers, run quadrature (`qd` is the external tridiagonal eigensolver
pipeline, a deterministic black-box function of `alpha`, `beta`, `k`), and
return the new scratch and the data delivered to the callback. -/
def slqCoreStep (A : LinOp)
    (qd : (ℕ → ℚ) → (ℕ → ℚ) → ℕ → (ℕ → ℚ) × (ℕ → ℚ))
    (k : ℕ) (rtol : ℚ) (orth ncv seed tid : ℕ) (c : TCore) :
    TCore × ProbeOut :=
  let g := generate_isotropic seed tid A.n c.ctr c.qBuf
  let r := lanczos_recurrence A g.1 k rtol orth c.alphaBuf c.betaBuf c.QBuf ncv
  let nw := qd r.alpha r.beta k
  (⟨g.2, r.v, r.V, r.alpha, r.beta⟩,
   ⟨r.v, r.alpha, r.beta, nw.1, nw.2⟩)

/-- One probe `i` of `slq`'s loop: the probe index `i` is used only to tag
the callback invocation `f(i, …)`; the numerics depend on the scratch alone. -/
def slqProbeStep (A : LinOp)
    (qd : (ℕ → ℚ) → (ℕ → ℚ) → ℕ → (ℕ → ℚ) × (ℕ → ℚ))
    (k : ℕ) (rtol : ℚ) (orth ncv seed tid : ℕ) (st : TState) (i : ℕ) :
    TState :=
  let r := slqCoreStep A qd k rtol orth ncv seed tid st.core
  ⟨r.1, st.outs ++ [(i, r.2)]⟩

/-- A worker thread `tid` of `slq`, processing the probe indices assigned to
it by the dynamic schedule, in order, over its own freshly allocated scratch. -/
def slqThread (A : LinOp)
    (qd : (ℕ → ℚ) → (ℕ → ℚ) → ℕ → (ℕ → ℚ) × (ℕ → ℚ))
    (k : ℕ) (rtol : ℚ) (orth ncv seed tid : ℕ) (probes : List ℕ) : TState :=
  probes.foldl (slqProbeStep A qd k rtol orth ncv seed tid) ⟨slqInitCore, []⟩

/-- `slq` (lanczos.h:111-184).  OpenMP's `schedule(dynamic, chunk)` hands the
probe indices `0, …, nv-1` out to the `num_threads` workers at run time; a
`schedule` (one ordered list of probe indices per thread) records one such
nondeterministic assignment.  The result is the multiset of callback
invocations, one per probe. -/
def slq (A : LinOp)
    (qd : (ℕ → ℚ) → (ℕ → ℚ) → ℕ → (ℕ → ℚ) × (ℕ → ℚ))
    (k : ℕ) (rtol : ℚ) (orth ncv seed : ℕ) (schedule : List (List ℕ)) :
    List (ℕ × ProbeOut) :=
  (schedule.enum.map
    (fun p => (slqThread A qd k rtol orth ncv seed p.1 p.2).outs)).flatten

/-- A schedule is a possible outcome of `#pragma omp for schedule(dynamic)`
over `for (i = 0; i < nv; ++i)` iff the threads' assignments partition the
probe indices `0, …, nv-1`. -/
@[reducible]
def validSchedule (nv : ℕ) (schedule : List (List ℕ)) : Prop :=
  List.Perm schedule.flatten (List.range nv)

/-- The data delivered to the callback for probe index `i` (the callback is
invoked exactly once per probe; lookup by probe index). -/
def deliveredOut (outs : List (ℕ × ProbeOut)) (i : ℕ) : ProbeOut :=
  match outs.find? (fun p => p.1 == i) with
  | some p => p.2
  | none => ⟨fun _ => 0, fun _ => 0, fun _ => 0, fun _ => 0, fun _ => 0⟩

/-- The `k × k` symmetric tridiagonal `T(alpha, beta)` handed to
`computeFromTridiagonal` in `lanczos_quadrature` (lanczos.h:86-91): diagonal
`alpha[0..k-1]`, sub/super-diagonal `beta[1..k-1]` (the `beta+1` offset). -/
def tridiagT (k : ℕ) (alpha beta : ℕ → ℚ) : Matrix (Fin k) (Fin k) ℚ :=
  Matrix.of fun i j =>
    if i = j then alpha i.val
    else if i.val + 1 = j.val then beta j.val
    else if j.val + 1 = i.val then beta i.val
    else 0

/-- `lanczos_quadrature`'s nodes (lanczos.h:94,104): the eigenvalues `theta`
returned by the external solver, copied to the output. -/
def quadNodes (k : ℕ) (theta : Fin k → ℚ) : Fin k → ℚ := theta

/-- `lanczos_quadrature`'s weights (lanczos.h:100-105): the first components
of the solver's eigenvector matrix `S`, squared (`tau *= tau`). -/
def quadWeights (k : ℕ) [NeZero k] (S : Matrix (Fin k) (Fin k) ℚ) :
    Fin k → ℚ := fun i => S 0 i * S 0 i

/-! Concrete operators and runs used as test inputs. -/

/-- The 1-dimensional identity operator. -/
def idOp1 : LinOp := ⟨1, fun v => v⟩

/-- The 1-dimensional zero operator. -/
def zeroOp1 : LinOp := ⟨1, fun _ => fun _ => 0⟩

/-- The diagonal operator `diag(1, 2)` on two coordinates. -/
def diagOp12 : LinOp :=
  ⟨2, fun v => fun i => if i = 0 then v 0 else if i = 1 then 2 * v 1 else 0⟩

/-- The symmetric operator `[[10, -6], [-6, 5]] = I + w wᵀ` with
`w = (3, -2)`; `(2, 3)` is an eigenvector (eigenvalue 1). -/
def projOp : LinOp :=
  ⟨2, fun v => fun i =>
    if i = 0 then 10 * v 0 - 6 * v 1
    else if i = 1 then -6 * v 0 + 5 * v 1
    else 0⟩

/-- Probe vector `(3, 4)` (norm 5, exactly representable). -/
def probeDiag : ℕ → ℚ := fun i => if i = 0 then 3 else if i = 1 then 4 else 0

/-- A run of the recurrence that never terminates early: `A = diag(1, 2)`,
`q = (3, 4)`, `k = 2`, `rtol = 0`, `orth = 0`, `ncv = 2`, zero-initialized
buffers. -/
def runDiag : LState :=
  lanczos_recurrence diagOp12 probeDiag 2 0 0
    (fun _ => 0) (fun _ => 0) (fun _ _ => 0) 2

/-- A `beta` buffer with a leftover value `5` at index 1 (and `beta[0] = 0`),
as left by an earlier probe handled by the same worker. -/
def betaPrior : ℕ → ℚ := fun i => if i = 1 then 5 else 0

/-- A run that terminates early at step 0: the zero operator with probe
`(1)`, `k = 2`, `rtol = 1`, starting from the leftover `betaPrior` buffer. -/
def runEarly : LState :=
  lanczos_recurrence zeroOp1 (fun _ => 1) 2 1 0
    (fun _ => 0) betaPrior (fun _ _ => 0) 2

/-- A trivial stand-in for the external quadrature black box (its value is
irrelevant to the driver-level claims below). -/
def qdId : (ℕ → ℚ) → (ℕ → ℚ) → ℕ → (ℕ → ℚ) × (ℕ → ℚ) :=
  fun a b _ => (a, b)

/-- The probe that thread 0 generates for its second assigned probe under
seed 0 and `n = 2` (sub-stream entries 2 and 3). -/
def probeSecond : ℕ → ℚ := fun i => if i < 2 then rngDraw 0 0 (2 + i) else 0

/-- A state exhibiting that `alpha[j]` is a Rayleigh quotient of the
partially updated vector: one column, `beta[0] = 1`, basis column `(1)`. -/
def stateC6 : LState :=
  { v := fun _ => 0, alpha := fun _ => 0, beta := fun _ => 1,
    V := fun _ _ => 1, pos := (0, 0, 1), j := 0, stopped := false,
    alphaWrites := [], betaWrites := [], colWrites := [] }

/-- Diagonal buffer for the concrete quadrature instance: `alpha = (1, 2)`. -/
def alphaQuad : ℕ → ℚ := fun i => if i = 0 then 1 else if i = 1 then 2 else 0

/-- Eigenvalues of the concrete quadrature instance, in ascending order. -/
def thetaQuad : Fin 2 → ℚ := fun i => if i = 0 then 1 else 2

/-! Projection lemmas for one loop body. -/

theorem lanczosStep_j (A : LinOp) (k : ℕ) (rt : ℚ) (orth ncv : ℕ)
    (s : LState) : ((lanczosStep A k rt orth ncv s).1).j = s.j + 1 := by
  simp only [lanczosStep]
  split <;> rfl

theorem lanczosStep_alpha_self (A : LinOp) (k : ℕ) (rt : ℚ) (orth ncv : ℕ)
    (s : LState) :
    ((lanczosStep A k rt orth ncv s).1).alpha s.j =
      dotProd A.n (s.V s.pos.2.1)
        (fun i => A.matvec (s.V s.pos.2.1) i - s.beta s.j * s.V s.pos.1 i) := by
  simp only [lanczosStep]
  split <;> simp [Function.update_same]

theorem lanczosStep_alpha_ne (A : LinOp) (k : ℕ) (rt : ℚ) (orth ncv : ℕ)
    (s : LState) (i : ℕ) (h : i ≠ s.j) :
    ((lanczosStep A k rt orth ncv s).1).alpha i = s.alpha i := by
  simp only [lanczosStep]
  split <;> simp [Function.update_noteq h]

theorem lanczosStep_beta_self (A : LinOp) (k : ℕ) (rt : ℚ) (orth ncv : ℕ)
    (s : LState) :
    ((lanczosStep A k rt orth ncv s).1).beta (s.j + 1) =
      vnorm A.n ((lanczosStep A k rt orth ncv s).1).v := by
  simp only [lanczosStep]
  split <;> simp [Function.update_same]

theorem lanczosStep_beta_ne (A : LinOp) (k : ℕ) (rt : ℚ) (orth ncv : ℕ)
    (s : LState) (i : ℕ) (h : i ≠ s.j + 1) :
    ((lanczosStep A k rt orth ncv s).1).beta i = s.beta i := by
  simp only [lanczosStep]
  split <;> simp [Function.update_noteq h]

theorem lanczosStep_V_of_stop (A : LinOp) (k : ℕ) (rt : ℚ) (orth ncv : ℕ)
    (s : LState) (h : (lanczosStep A k rt orth ncv s).2 = true) :
    ((lanczosStep A k rt orth ncv s).1).V = s.V := by
  simp only [lanczosStep] at h ⊢
  split at h
  next hc => rw [if_pos hc]
  next hc => exact absurd h (by simp)

theorem lanczosStep_V_of_go (A : LinOp) (k : ℕ) (rt : ℚ) (orth ncv : ℕ)
    (s : LState) (h : (lanczosStep A k rt orth ncv s).2 = false) :
    ((lanczosStep A k rt orth ncv s).1).V =
      Function.update s.V s.pos.2.2
        (fun i => ((lanczosStep A k rt orth ncv s).1).v i /
          vnorm A.n ((lanczosStep A k rt orth ncv s).1).v) := by
  simp only [lanczosStep] at h ⊢
  split at h
  next hc => exact absurd h (by simp)
  next hc => rw [if_neg hc]

theorem lanczosStep_pos_of_stop (A : LinOp) (k : ℕ) (rt : ℚ) (orth ncv : ℕ)
    (s : LState) (h : (lanczosStep A k rt orth ncv s).2 = true) :
    ((lanczosStep A k rt orth ncv s).1).pos = s.pos := by
  simp only [lanczosStep] at h ⊢
  split at h
  next hc => rw [if_pos hc]
  next hc => exact absurd h (by simp)

theorem lanczosStep_pos_of_go (A : LinOp) (k : ℕ) (rt : ℚ) (orth ncv : ℕ)
    (s : LState) (h : (lanczosStep A k rt orth ncv s).2 = false) :
    ((lanczosStep A k rt orth ncv s).1).pos = posNext ncv s.j s.pos := by
  simp only [lanczosStep] at h ⊢
  split at h
  next hc => exact absurd h (by simp)
  next hc => rw [if_neg hc]

theorem lanczosStep_colW_of_stop (A : LinOp) (k : ℕ) (rt : ℚ) (orth ncv : ℕ)
    (s : LState) (h : (lanczosStep A k rt orth ncv s).2 = true) :
    ((lanczosStep A k rt orth ncv s).1).colWrites = s.colWrites := by
  simp only [lanczosStep] at h ⊢
  split at h
  next hc => rw [if_pos hc]
  next hc => exact absurd h (by simp)

theorem lanczosStep_colW_of_go (A : LinOp) (k : ℕ) (rt : ℚ) (orth ncv : ℕ)
    (s : LState) (h : (lanczosStep A k rt orth ncv s).2 = false) :
    ((lanczosStep A k rt orth ncv s).1).colWrites =
      s.colWrites ++ [s.pos.2.2] := by
  simp only [lanczosStep] at h ⊢
  split at h
  next hc => exact absurd h (by simp)
  next hc => rw [if_neg hc]

theorem lanczosStep_stopped_of_stop (A : LinOp) (k : ℕ) (rt : ℚ)
    (orth ncv : ℕ) (s : LState)
    (h : (lanczosStep A k rt orth ncv s).2 = true) :
    ((lanczosStep A k rt orth ncv s).1).stopped = true := by
  simp only [lanczosStep] at h ⊢
  split at h
  next hc => rw [if_pos hc]
  next hc => exact absurd h (by simp)

theorem lanczosStep_stopped_of_go (A : LinOp) (k : ℕ) (rt : ℚ)
    (orth ncv : ℕ) (s : LState)
    (h : (lanczosStep A k rt orth ncv s).2 = false) :
    ((lanczosStep A k rt orth ncv s).1).stopped = s.stopped := by
  simp only [lanczosStep] at h ⊢
  split at h
  next hc => exact absurd h (by simp)
  next hc => rw [if_neg hc]

theorem lanczosStep_snd_false_ne_k (A : LinOp) (k : ℕ) (rt : ℚ)
    (orth ncv : ℕ) (s : LState)
    (h : (lanczosStep A k rt orth ncv s).2 = false) : s.j + 1 ≠ k := by
  simp only [lanczosStep] at h
  split at h
  · exact absurd h (by simp)
  next hc => exact fun hk => hc (Or.inr hk)

theorem lanczosStep_v_of_orth (A : LinOp) (k : ℕ) (rt : ℚ) (orth ncv : ℕ)
    (s : LState) (h : 0 < orth) :
    ((lanczosStep A k rt orth ncv s).1).v =
      orth_vector A.n ncv s.V s.pos.2.1 orth true
        (fun i => A.matvec (s.V s.pos.2.1) i - s.beta s.j * s.V s.pos.1 i -
          dotProd A.n (s.V s.pos.2.1)
            (fun i2 => A.matvec (s.V s.pos.2.1) i2 -
              s.beta s.j * s.V s.pos.1 i2) * s.V s.pos.2.1 i) := by
  simp only [lanczosStep, stepOrth, if_pos h]
  split <;> rfl

/-! Lemmas about the loop. -/

theorem lanczosGo_succ (A : LinOp) (k : ℕ) (rt : ℚ) (orth ncv fuel : ℕ)
    (s : LState) :
    lanczosGo A k rt orth ncv (fuel + 1) s =
      if (lanczosStep A k rt orth ncv s).2 = true
      then (lanczosStep A k rt orth ncv s).1
      else lanczosGo A k rt orth ncv fuel (lanczosStep A k rt orth ncv s).1 := by
  simp only [lanczosGo]

theorem lanczosGo_j_ge (A : LinOp) (k : ℕ) (rt : ℚ) (orth ncv : ℕ) :
    ∀ (fuel : ℕ) (s : LState), s.j ≤ (lanczosGo A k rt orth ncv fuel s).j := by
  intro fuel
  induction fuel with
  | zero => intro s; exact le_rfl
  | succ f ih =>
    intro s
    rw [lanczosGo_succ]
    by_cases hfl : (lanczosStep A k rt orth ncv s).2 = true
    · rw [if_pos hfl, lanczosStep_j]; omega
    · rw [if_neg hfl]
      exact le_trans (by rw [lanczosStep_j]; omega)
        (ih ((lanczosStep A k rt orth ncv s).1))

theorem lanczosGo_j_succ (A : LinOp) (k : ℕ) (rt : ℚ) (orth ncv : ℕ)
    (fuel : ℕ) (s : LState) (h : 1 ≤ fuel) :
    s.j + 1 ≤ (lanczosGo A k rt orth ncv fuel s).j := by
  obtain ⟨f, rfl⟩ : ∃ f, fuel = f + 1 := ⟨fuel - 1, by omega⟩
  rw [lanczosGo_succ]
  by_cases hfl : (lanczosStep A k rt orth ncv s).2 = true
  · rw [if_pos hfl, lanczosStep_j]
  · rw [if_neg hfl]
    exact le_trans (by rw [lanczosStep_j])
      (lanczosGo_j_ge A k rt orth ncv f ((lanczosStep A k rt orth ncv s).1))

theorem lanczosGo_alpha_high (A : LinOp) (k : ℕ) (rt : ℚ) (orth ncv : ℕ) :
    ∀ (fuel : ℕ) (s : LState) (i : ℕ),
      (lanczosGo A k rt orth ncv fuel s).j ≤ i →
      (lanczosGo A k rt orth ncv fuel s).alpha i = s.alpha i := by
  intro fuel
  induction fuel with
  | zero => intro s i _; rfl
  | succ f ih =>
    intro s i hi
    rw [lanczosGo_succ] at hi ⊢
    by_cases hfl : (lanczosStep A k rt orth ncv s).2 = true
    · rw [if_pos hfl] at hi ⊢
      rw [lanczosStep_j] at hi
      exact lanczosStep_alpha_ne A k rt orth ncv s i (by omega)
    · rw [if_neg hfl] at hi ⊢
      have h1 := lanczosGo_j_ge A k rt orth ncv f ((lanczosStep A k rt orth ncv s).1)
      rw [lanczosStep_j] at h1
      rw [ih _ _ hi]
      exact lanczosStep_alpha_ne A k rt orth ncv s i (by omega)

theorem lanczosGo_beta_high (A : LinOp) (k : ℕ) (rt : ℚ) (orth ncv : ℕ) :
    ∀ (fuel : ℕ) (s : LState) (i : ℕ),
      (lanczosGo A k rt orth ncv fuel s).j + 1 ≤ i →
      (lanczosGo A k rt orth ncv fuel s).beta i = s.beta i := by
  intro fuel
  induction fuel with
  | zero => intro s i _; rfl
  | succ f ih =>
    intro s i hi
    rw [lanczosGo_succ] at hi ⊢
    by_cases hfl : (lanczosStep A k rt orth ncv s).2 = true
    · rw [if_pos hfl] at hi ⊢
      rw [lanczosStep_j] at hi
      exact lanczosStep_beta_ne A k rt orth ncv s i (by omega)
    · rw [if_neg hfl] at hi ⊢
      have h1 := lanczosGo_j_ge A k rt orth ncv f ((lanczosStep A k rt orth ncv s).1)
      rw [lanczosStep_j] at h1
      rw [ih _ _ hi]
      exact lanczosStep_beta_ne A k rt orth ncv s i (by omega)

theorem lanczosGo_alpha_low (A : LinOp) (k : ℕ) (rt : ℚ) (orth ncv : ℕ) :
    ∀ (fuel : ℕ) (s : LState) (i : ℕ), i < s.j →
      (lanczosGo A k rt orth ncv fuel s).alpha i = s.alpha i := by
  intro fuel
  induction fuel with
  | zero => intro s i _; rfl
  | succ f ih =>
    intro s i hi
    rw [lanczosGo_succ]
    by_cases hfl : (lanczosStep A k rt orth ncv s).2 = true
    · rw [if_pos hfl]
      exact lanczosStep_alpha_ne A k rt orth ncv s i (by omega)
    · rw [if_neg hfl]
      rw [ih _ _ (by rw [lanczosStep_j]; omega)]
      exact lanczosStep_alpha_ne A k rt orth ncv s i (by omega)

theorem lanczosGo_beta_low (A : LinOp) (k : ℕ) (rt : ℚ) (orth ncv : ℕ) :
    ∀ (fuel : ℕ) (s : LState) (i : ℕ), i < s.j + 1 →
      (lanczosGo A k rt orth ncv fuel s).beta i = s.beta i := by
  intro fuel
  induction fuel with
  | zero => intro s i _; rfl
  | succ f ih =>
    intro s i hi
    rw [lanczosGo_succ]
    by_cases hfl : (lanczosStep A k rt orth ncv s).2 = true
    · rw [if_pos hfl]
      exact lanczosStep_beta_ne A k rt orth ncv s i (by omega)
    · rw [if_neg hfl]
      rw [ih _ _ (by rw [lanczosStep_j]; omega)]
      exact lanczosStep_beta_ne A k rt orth ncv s i (by omega)

theorem lanczosGo_stopped (A : LinOp) (k : ℕ) (rt : ℚ) (orth ncv : ℕ) :
    ∀ (fuel : ℕ) (s : LState), fuel + s.j = k → 1 ≤ fuel →
      (lanczosGo A k rt orth ncv fuel s).stopped = true := by
  intro fuel
  induction fuel with
  | zero => intro s _ h; omega
  | succ f ih =>
    intro s hk _
    rw [lanczosGo_succ]
    by_cases hfl : (lanczosStep A k rt orth ncv s).2 = true
    · rw [if_pos hfl]
      exact lanczosStep_stopped_of_stop A k rt orth ncv s hfl
    · rw [if_neg hfl]
      have hne := lanczosStep_snd_false_ne_k A k rt orth ncv s
        (by simpa using hfl)
      refine ih _ ?_ ?_
      · rw [lanczosStep_j]; omega
      · omega

theorem lanczosGo_colW_count (A : LinOp) (k : ℕ) (rt : ℚ) (orth ncv : ℕ) :
    ∀ (fuel : ℕ) (s : LState), s.stopped = false →
      (lanczosGo A k rt orth ncv fuel s).stopped = true →
      (lanczosGo A k rt orth ncv fuel s).colWrites.length + s.j + 1 =
        s.colWrites.length + (lanczosGo A k rt orth ncv fuel s).j := by
  intro fuel
  induction fuel with
  | zero =>
    intro s h1 h2
    simp only [lanczosGo] at h2
    rw [h1] at h2
    exact absurd h2 (by simp)
  | succ f ih =>
    intro s h1 h2
    rw [lanczosGo_succ] at h2 ⊢
    by_cases hfl : (lanczosStep A k rt orth ncv s).2 = true
    · rw [if_pos hfl] at h2 ⊢
      rw [lanczosStep_colW_of_stop A k rt orth ncv s hfl,
        lanczosStep_j]
      omega
    · rw [if_neg hfl] at h2 ⊢
      have hst := lanczosStep_stopped_of_go A k rt orth ncv s
        (by simpa using hfl)
      have hcw := lanczosStep_colW_of_go A k rt orth ncv s
        (by simpa using hfl)
      have hj := lanczosStep_j A k rt orth ncv s
      have := ih ((lanczosStep A k rt orth ncv s).1) (by rw [hst, h1]) h2
      rw [hcw, hj] at this
      simp only [List.length_append, List.length_cons, List.length_nil] at this
      omega

theorem posIter_closed (ncv : ℕ) (h2 : 2 ≤ ncv) :
    ∀ j : ℕ, posIter ncv (j + 1) = (j % ncv, (j + 1) % ncv, (j + 2) % ncv) := by
  intro j
  induction j with
  | zero =>
    show posNext ncv 0 (posInit ncv) = (0 % ncv, 1 % ncv, 2 % ncv)
    simp [posNext, posInit, Nat.zero_mod, Nat.mod_eq_of_lt (show 1 < ncv by omega)]
  | succ i ih =>
    show posNext ncv (i + 1) (posIter ncv (i + 1)) = _
    rw [ih]
    rfl

theorem posIter_third (ncv : ℕ) (h2 : 2 ≤ ncv) (j : ℕ) :
    (posIter ncv j).2.2 = (j + 1) % ncv := by
  cases j with
  | zero => show 1 = 1 % ncv; rw [Nat.mod_eq_of_lt (by omega)]
  | succ i => rw [posIter_closed ncv h2 i]

theorem lanczosGo_V_col0 (A : LinOp) (k : ℕ) (rt : ℚ) (orth ncv : ℕ)
    (h2 : 2 ≤ ncv) :
    ∀ (fuel : ℕ) (s : LState), fuel + s.j = k → s.pos = posIter ncv s.j →
      (lanczosGo A k rt orth ncv fuel s).j ≤ ncv →
      (lanczosGo A k rt orth ncv fuel s).V 0 = s.V 0 := by
  intro fuel
  induction fuel with
  | zero => intro s _ _ _; rfl
  | succ f ih =>
    intro s hk hpos hle
    rw [lanczosGo_succ] at hle ⊢
    by_cases hfl : (lanczosStep A k rt orth ncv s).2 = true
    · rw [if_pos hfl] at hle ⊢
      rw [lanczosStep_V_of_stop A k rt orth ncv s hfl]
    · rw [if_neg hfl] at hle ⊢
      have hflf : (lanczosStep A k rt orth ncv s).2 = false := by simpa using hfl
      have hj := lanczosStep_j A k rt orth ncv s
      have hne := lanczosStep_snd_false_ne_k A k rt orth ncv s hflf
      have hf : 1 ≤ f := by omega
      have hup := lanczosGo_j_succ A k rt orth ncv f
        ((lanczosStep A k rt orth ncv s).1) hf
      rw [hj] at hup
      have hcol : ((lanczosStep A k rt orth ncv s).1).V 0 = s.V 0 := by
        rw [lanczosStep_V_of_go A k rt orth ncv s hflf]
        have h3 : s.pos.2.2 = (s.j + 1) % ncv := by
          rw [hpos]; exact posIter_third ncv h2 s.j
        have h4 : (s.j + 1) % ncv = s.j + 1 := Nat.mod_eq_of_lt (by omega)
        exact Function.update_noteq (by omega) _ _
      rw [ih ((lanczosStep A k rt orth ncv s).1) (by rw [hj]; omega) ?_ hle,
        hcol]
      rw [lanczosStep_pos_of_go A k rt orth ncv s hflf, hpos, hj]
      rfl

/-! Congruence of a run in the leftover contents of the alpha and beta
buffers: the recurrence reads `beta` only at the current index `j` (which it
wrote itself for `j ≥ 1`) and never reads `alpha` after writing it. -/

theorem lanczosStep_congr (A : LinOp) (k : ℕ) (rt : ℚ) (orth ncv : ℕ)
    (s1 s2 : LState) (_hv : s1.v = s2.v) (hV : s1.V = s2.V)
    (hpos : s1.pos = s2.pos) (hj : s1.j = s2.j)
    (hb : s1.beta s1.j = s2.beta s2.j) :
    (lanczosStep A k rt orth ncv s1).2 = (lanczosStep A k rt orth ncv s2).2 ∧
    (lanczosStep A k rt orth ncv s1).1.v =
      (lanczosStep A k rt orth ncv s2).1.v ∧
    (lanczosStep A k rt orth ncv s1).1.V =
      (lanczosStep A k rt orth ncv s2).1.V ∧
    (lanczosStep A k rt orth ncv s1).1.pos =
      (lanczosStep A k rt orth ncv s2).1.pos ∧
    (lanczosStep A k rt orth ncv s1).1.j =
      (lanczosStep A k rt orth ncv s2).1.j ∧
    (lanczosStep A k rt orth ncv s1).1.alpha s1.j =
      (lanczosStep A k rt orth ncv s2).1.alpha s2.j ∧
    (lanczosStep A k rt orth ncv s1).1.beta (s1.j + 1) =
      (lanczosStep A k rt orth ncv s2).1.beta (s2.j + 1) := by
  have hb2 : s1.beta s2.j = s2.beta s2.j := hj ▸ hb
  simp only [lanczosStep, hV, hpos, hj, hb2]
  split_ifs with hc
  · exact ⟨rfl, rfl, rfl, rfl, rfl, by simp, by simp⟩
  · exact ⟨rfl, rfl, rfl, rfl, rfl, by simp, by simp⟩

theorem lanczosGo_congr (A : LinOp) (k : ℕ) (rt : ℚ) (orth ncv : ℕ) :
    ∀ (fuel : ℕ) (s1 s2 : LState), s1.v = s2.v → s1.V = s2.V →
      s1.pos = s2.pos → s1.j = s2.j → s1.beta s1.j = s2.beta s2.j →
      (lanczosGo A k rt orth ncv fuel s1).j =
        (lanczosGo A k rt orth ncv fuel s2).j ∧
      (∀ i, s1.j ≤ i → i < (lanczosGo A k rt orth ncv fuel s1).j →
        (lanczosGo A k rt orth ncv fuel s1).alpha i =
          (lanczosGo A k rt orth ncv fuel s2).alpha i) ∧
      (∀ i, s1.j + 1 ≤ i → i ≤ (lanczosGo A k rt orth ncv fuel s1).j →
        (lanczosGo A k rt orth ncv fuel s1).beta i =
          (lanczosGo A k rt orth ncv fuel s2).beta i) := by
  intro fuel
  induction fuel with
  | zero =>
    intro s1 s2 _ _ _ hj _
    exact ⟨hj, fun i h1 h2 => absurd h2 (by simp only [lanczosGo]; omega),
      fun i h1 h2 => by simp only [lanczosGo] at h2; omega⟩
  | succ f ih =>
    intro s1 s2 hv hV hpos hj hb
    obtain ⟨hcfl, hcv, hcV, hcpos, hcj, hcalpha, hcbeta⟩ :=
      lanczosStep_congr A k rt orth ncv s1 s2 hv hV hpos hj hb
    rw [lanczosGo_succ, lanczosGo_succ]
    by_cases hfl : (lanczosStep A k rt orth ncv s1).2 = true
    · have hfl2 : (lanczosStep A k rt orth ncv s2).2 = true := by
        rw [← hcfl]; exact hfl
      rw [if_pos hfl, if_pos hfl2]
      refine ⟨by rw [lanczosStep_j, lanczosStep_j, hj], ?_, ?_⟩
      · intro i h1 h2
        rw [lanczosStep_j] at h2
        have hi : i = s1.j := by omega
        subst hi
        exact hcalpha.trans (by rw [hj])
      · intro i h1 h2
        rw [lanczosStep_j] at h2
        have hi : i = s1.j + 1 := by omega
        subst hi
        exact hcbeta.trans (by rw [hj])
    · have hflf : (lanczosStep A k rt orth ncv s1).2 = false := by
        simpa using hfl
      have hfl2 : (lanczosStep A k rt orth ncv s2).2 = false := by
        rw [← hcfl]; exact hflf
      rw [if_neg hfl, if_neg (by rw [hfl2]; simp)]
      have hbnew : ((lanczosStep A k rt orth ncv s1).1).beta
          ((lanczosStep A k rt orth ncv s1).1).j =
          ((lanczosStep A k rt orth ncv s2).1).beta
            ((lanczosStep A k rt orth ncv s2).1).j := by
        rw [lanczosStep_j, lanczosStep_j]
        exact hcbeta
      obtain ⟨hj', halpha', hbeta'⟩ := ih ((lanczosStep A k rt orth ncv s1).1)
        ((lanczosStep A k rt orth ncv s2).1) hcv hcV hcpos hcj hbnew
      have hjs1 := lanczosStep_j A k rt orth ncv s1
      have hjs2 := lanczosStep_j A k rt orth ncv s2
      refine ⟨hj', ?_, ?_⟩
      · intro i h1 h2
        by_cases hcase : s1.j + 1 ≤ i
        · exact halpha' i (by rw [hjs1]; omega) h2
        · have hi : i = s1.j := by omega
          subst hi
          have hlow1 := lanczosGo_alpha_low A k rt orth ncv f
            ((lanczosStep A k rt orth ncv s1).1) s1.j (by rw [hjs1]; omega)
          have hlow2 := lanczosGo_alpha_low A k rt orth ncv f
            ((lanczosStep A k rt orth ncv s2).1) s1.j (by rw [hjs2]; omega)
          rw [hlow1, hlow2]
          exact hcalpha.trans (by rw [hj])
      · intro i h1 h2
        by_cases hcase : s1.j + 2 ≤ i
        · exact hbeta' i (by rw [hjs1]; omega) h2
        · have hi : i = s1.j + 1 := by omega
          subst hi
          have hlow1 := lanczosGo_beta_low A k rt orth ncv f
            ((lanczosStep A k rt orth ncv s1).1) (s1.j + 1)
            (by rw [hjs1]; omega)
          have hlow2 := lanczosGo_beta_low A k rt orth ncv f
            ((lanczosStep A k rt orth ncv s2).1) (s1.j + 1)
            (by rw [hjs2]; omega)
          rw [hlow1, hlow2]
          exact hcbeta.trans (by rw [hj])

/-! The probe index `i` of `slq`'s loop is used only to tag the callback
invocation, so a worker's outputs depend only on how many probes it has
already processed, not on which global indices those probes carried. -/

theorem slqFold_congr (A : LinOp)
    (qd : (ℕ → ℚ) → (ℕ → ℚ) → ℕ → (ℕ → ℚ) × (ℕ → ℚ))
    (k : ℕ) (rtol : ℚ) (orth ncv seed tid : ℕ) :
    ∀ (L1 L2 : List ℕ), L1.length = L2.length →
      ∀ (c : TCore) (o1 o2 : List (ℕ × ProbeOut)),
        o1.map Prod.snd = o2.map Prod.snd →
        (L1.foldl (slqProbeStep A qd k rtol orth ncv seed tid) ⟨c, o1⟩).core =
          (L2.foldl (slqProbeStep A qd k rtol orth ncv seed tid) ⟨c, o2⟩).core ∧
        (L1.foldl (slqProbeStep A qd k rtol orth ncv seed tid)
            ⟨c, o1⟩).outs.map Prod.snd =
          (L2.foldl (slqProbeStep A qd k rtol orth ncv seed tid)
            ⟨c, o2⟩).outs.map Prod.snd := by
  intro L1
  induction L1 with
  | nil =>
    intro L2 hlen c o1 o2 ho
    obtain rfl : L2 = [] := List.length_eq_zero.mp hlen.symm
    exact ⟨rfl, ho⟩
  | cons x xs ih =>
    intro L2 hlen c o1 o2 ho
    obtain ⟨y, ys, rfl⟩ : ∃ y ys, L2 = y :: ys := by
      cases L2 with
      | nil => exact absurd hlen (by simp)
      | cons y ys => exact ⟨y, ys, rfl⟩
    simp only [List.foldl_cons, slqProbeStep]
    exact ih ys (by simpa using hlen) _ _ _ (by simp [ho])

/-! Claim theorems. -/

/-- C1: the claim asserts that each `slq` worker's `beta` scratch has at
least `k + 1` entries so that every `beta[j+1]` write of the recurrence is
in bounds.  In the code the worker allocates only `lanczos_degree = k`
entries (`slqBetaLen`), while a run that is not stopped early (here
`A = diag(1,2)`, `q = (3,4)`, `k = 2`, `rtol = 0`) writes `beta[1]` and
`beta[2]`: the final write lands at index `slqBetaLen 2 = 2`, one past the
allocation (valid indices are `0, 1`). -/
theorem c1_beta_write_out_of_allocation :
    runDiag.betaWrites = [1, 2] ∧ slqBetaLen 2 = 2 ∧
      slqBetaLen 2 ∈ runDiag.betaWrites := by
  refine ⟨by decide, rfl, by decide⟩

/-- C2 counterexample: with `nv = 2`, `num_threads = 2`, seed 0 and the same
numerical inputs, the dynamic schedule that gives both probes to thread 0
and the schedule that gives one probe to each thread are both valid
outcomes of `schedule(dynamic)`, yet they deliver different `q` data to the
callback for probe index 1 — so two independent runs need not be
bit-identical per probe index. -/
theorem c2_schedule_counterexample :
    validSchedule 2 [[0, 1], []] ∧ validSchedule 2 [[0], [1]] ∧
    (deliveredOut (slq diagOp12 qdId 1 0 0 2 0 [[0, 1], []]) 1).qOut 0 ≠
      (deliveredOut (slq diagOp12 qdId 1 0 0 2 0 [[0], [1]]) 1).qOut 0 := by
  exact ⟨by decide, by decide, by decide⟩

/-- C2 (amended): a worker's sequence of delivered outputs depends only on
(seed, thread id, position within the thread's assignment) — the global
probe indices only tag the outputs.  Hence per-probe-index outputs are
bit-identical across two runs exactly when the two dynamic schedules agree;
they need not agree across independent runs. -/
theorem c2_outputs_depend_on_position_only (A : LinOp)
    (qd : (ℕ → ℚ) → (ℕ → ℚ) → ℕ → (ℕ → ℚ) × (ℕ → ℚ))
    (k : ℕ) (rtol : ℚ) (orth ncv seed tid : ℕ) (L1 L2 : List ℕ)
    (hlen : L1.length = L2.length) :
    (slqThread A qd k rtol orth ncv seed tid L1).outs.map Prod.snd =
      (slqThread A qd k rtol orth ncv seed tid L2).outs.map Prod.snd :=
  (slqFold_congr A qd k rtol orth ncv seed tid L1 L2 hlen
    slqInitCore [] [] rfl).2

/-- C2 witness: the amended theorem at a concrete instance — a thread
processing probes `[0, 1]` and one processing probes `[5, 9]` deliver the
same two outputs, in order. -/
theorem c2_outputs_depend_on_position_only_ex :
    ([0, 1] : List ℕ).length = ([5, 9] : List ℕ).length ∧
    (slqThread diagOp12 qdId 1 0 0 2 0 0 [0, 1]).outs.map Prod.snd =
      (slqThread diagOp12 qdId 1 0 0 2 0 0 [5, 9]).outs.map Prod.snd :=
  ⟨rfl, c2_outputs_depend_on_position_only diagOp12 qdId 1 0 0 2 0 0
    [0, 1] [5, 9] rfl⟩

/-- C3 counterexample: after the recurrence (`A = diag(1,2)`, `q = (3,4)`,
`k = ncv = 2`, `rtol = 0`) the `q` buffer holds the final residual
(`q[0] = 0`), not the normalized probe (`3/5`), which sits in `Q`'s column
0: `v.normalized()` copies into `Q.col(0)` without modifying `q`, and the
loop then reuses `q` as the work vector `v`. -/
theorem c3_q_buffer_not_normalized_in_place :
    runDiag.v 0 ≠ normalized diagOp12.n probeDiag 0 ∧
      runDiag.V 0 0 = normalized diagOp12.n probeDiag 0 := by
  exact ⟨by decide, by decide⟩

/-- C3 (amended): the normalized starting probe is written to `Q`'s column
0 — and survives there as long as the rolling window has not wrapped back
onto column 0, i.e. whenever the recurrence executed at most `ncv` bodies
(in particular whenever `ncv = k`, since the final body never writes a
column); the `q` buffer itself is the loop's work vector and ends holding
the final residual. -/
theorem c3_col0_holds_normalized_probe (A : LinOp) (q : ℕ → ℚ) (k : ℕ)
    (rtol : ℚ) (orth : ℕ) (alpha beta : ℕ → ℚ) (V : ℕ → ℕ → ℚ) (ncv : ℕ)
    (h2 : 2 ≤ ncv)
    (hle : (lanczos_recurrence A q k rtol orth alpha beta V ncv).j ≤ ncv) :
    (lanczos_recurrence A q k rtol orth alpha beta V ncv).V 0 =
      normalized A.n q := by
  unfold lanczos_recurrence at hle ⊢
  rw [lanczosGo_V_col0 A k (ratSqrt (A.n : ℚ) * rtol) orth ncv h2 k
    { v := q, alpha := alpha, beta := beta,
      V := Function.update V 0 (normalized A.n q), pos := posInit ncv,
      j := 0, stopped := false,
      alphaWrites := [], betaWrites := [], colWrites := [0] }
    rfl rfl hle]
  exact Function.update_same 0 (normalized A.n q) V

/-- C3 witness: the amended theorem at the concrete `runDiag` instance
(`ncv = k = 2`, two bodies executed, so column 0 survives). -/
theorem c3_col0_holds_normalized_probe_ex :
    2 ≤ 2 ∧ runDiag.j ≤ 2 ∧ runDiag.V 0 = normalized diagOp12.n probeDiag :=
  ⟨by norm_num, by decide,
    c3_col0_holds_normalized_probe diagOp12 probeDiag 2 0 0
      (fun _ => 0) (fun _ => 0) (fun _ _ => 0) 2 (by norm_num) (by decide)⟩

/-- C4 counterexample: the driver zeroes the scratch once per thread, not
before every probe.  A worker (seed 0, thread 0) processing probes `[0, 1]`
with `A = projOp`, `k = 2`, `rtol = 1` runs probe 0 to completion
(`alpha = (5, 10)`), then probe 1 stops early at step 0, so the buffer
handed to the callback still holds `alpha[1] = 10` from probe 0 — while a
run of the same probe over freshly zeroed buffers leaves `alpha[1] = 0`. -/
theorem c4_stale_tail_delivered :
    (deliveredOut (slqThread projOp qdId 2 1 0 2 0 0 [0, 1]).outs 1).alphaOut
        1 = 10 ∧
    (lanczos_recurrence projOp probeSecond 2 1 0 (fun _ => 0) (fun _ => 0)
        (fun _ _ => 0) 2).alpha 1 = 0 ∧
    (deliveredOut (slqThread projOp qdId 2 1 0 2 0 0 [0, 1]).outs 1).alphaOut
        1 ≠
      (lanczos_recurrence projOp probeSecond 2 1 0 (fun _ => 0) (fun _ => 0)
        (fun _ _ => 0) 2).alpha 1 := by
  exact ⟨by decide, by decide, by decide⟩

/-- C4 (amended): the scratch is zeroed once per thread before the probe
loop; the entries a probe actually writes (`alpha[0..j-1]`, `beta[1..j]`
where `j` bodies execute) do not depend on the leftover buffer contents
(given that `beta[0]` is the same — it stays 0 because it is never
written), so staleness is confined to the tails beyond the stopping step. -/
theorem c4_written_prefix_buffer_independent (A : LinOp) (q : ℕ → ℚ)
    (k : ℕ) (rtol : ℚ) (orth : ℕ) (a1 b1 a2 b2 : ℕ → ℚ) (V : ℕ → ℕ → ℚ)
    (ncv : ℕ) (hb : b1 0 = b2 0) :
    (lanczos_recurrence A q k rtol orth a1 b1 V ncv).j =
      (lanczos_recurrence A q k rtol orth a2 b2 V ncv).j ∧
    (∀ i, i < (lanczos_recurrence A q k rtol orth a1 b1 V ncv).j →
      (lanczos_recurrence A q k rtol orth a1 b1 V ncv).alpha i =
        (lanczos_recurrence A q k rtol orth a2 b2 V ncv).alpha i) ∧
    (∀ i, 1 ≤ i → i ≤ (lanczos_recurrence A q k rtol orth a1 b1 V ncv).j →
      (lanczos_recurrence A q k rtol orth a1 b1 V ncv).beta i =
        (lanczos_recurrence A q k rtol orth a2 b2 V ncv).beta i) := by
  unfold lanczos_recurrence
  obtain ⟨h1, h2, h3⟩ := lanczosGo_congr A k (ratSqrt (A.n : ℚ) * rtol) orth
    ncv k
    { v := q, alpha := a1, beta := b1,
      V := Function.update V 0 (normalized A.n q), pos := posInit ncv,
      j := 0, stopped := false,
      alphaWrites := [], betaWrites := [], colWrites := [0] }
    { v := q, alpha := a2, beta := b2,
      V := Function.update V 0 (normalized A.n q), pos := posInit ncv,
      j := 0, stopped := false,
      alphaWrites := [], betaWrites := [], colWrites := [0] }
    rfl rfl rfl rfl hb
  exact ⟨h1, fun i hi => h2 i (Nat.zero_le i) hi, h3⟩

/-- C4 witness: the amended theorem at a concrete instance — the zero
buffers and the `betaPrior` leftovers (which agree at index 0) give runs
with the same step count. -/
theorem c4_written_prefix_buffer_independent_ex :
    (fun _ : ℕ => (0 : ℚ)) 0 = betaPrior 0 ∧
    (lanczos_recurrence zeroOp1 (fun _ => 1) 2 1 0 (fun _ => 0) (fun _ => 0)
        (fun _ _ => 0) 2).j = runEarly.j :=
  ⟨rfl, (c4_written_prefix_buffer_independent zeroOp1 (fun _ => 1) 2 1 0
    (fun _ => 0) (fun _ => 0) (fun _ => 0) betaPrior (fun _ _ => 0) 2
    rfl).1⟩

/-- C5 counterexample: with the zero operator, probe `(1)`, `k = 2`,
`rtol = 1` and a leftover `beta[1] = 5`, the recurrence stops early at step
`j* = 0` (one body executes, `runEarly.j = 1 < 2 = k`) — yet `beta[j*+1] =
beta[1]` does *not* retain its prior value 5: the stopping step itself
writes `alpha[j*]` and `beta[j*+1]` (here `beta[1] = 0`) before the break
test. -/
theorem c5_beta_written_at_stopping_step :
    runEarly.j = 1 ∧ runEarly.beta 1 = 0 ∧ betaPrior 1 = 5 ∧
      runEarly.beta 1 ≠ betaPrior 1 := by
  exact ⟨by decide, by decide, by decide, by decide⟩

/-- C5 (amended): if the recurrence executes `j` bodies (stopping at step
`j* = j - 1 < k`), then `alpha[j..k-1]` and `beta[j+1..k]` retain their
prior values — the stopping step does write `alpha[j*]` and `beta[j*+1]` —
and the next basis column is not written at the stopping step: exactly `j`
columns are written in total (the initial normalized probe plus one per
completed step). -/
theorem c5_tails_retained_after_stop (A : LinOp) (q : ℕ → ℚ) (k : ℕ)
    (rtol : ℚ) (orth : ℕ) (alpha beta : ℕ → ℚ) (V : ℕ → ℕ → ℚ) (ncv : ℕ)
    (hk : 1 ≤ k) :
    (∀ i, (lanczos_recurrence A q k rtol orth alpha beta V ncv).j ≤ i →
      (lanczos_recurrence A q k rtol orth alpha beta V ncv).alpha i =
        alpha i) ∧
    (∀ i, (lanczos_recurrence A q k rtol orth alpha beta V ncv).j + 1 ≤ i →
      (lanczos_recurrence A q k rtol orth alpha beta V ncv).beta i =
        beta i) ∧
    (lanczos_recurrence A q k rtol orth alpha beta V ncv).colWrites.length =
      (lanczos_recurrence A q k rtol orth alpha beta V ncv).j := by
  have hrec : lanczos_recurrence A q k rtol orth alpha beta V ncv =
      lanczosGo A k (ratSqrt (A.n : ℚ) * rtol) orth ncv k
        { v := q, alpha := alpha, beta := beta,
          V := Function.update V 0 (normalized A.n q), pos := posInit ncv,
          j := 0, stopped := false,
          alphaWrites := [], betaWrites := [], colWrites := [0] } := rfl
  rw [hrec]
  refine ⟨fun i hi => lanczosGo_alpha_high A k _ orth ncv k _ i hi,
    fun i hi => lanczosGo_beta_high A k _ orth ncv k _ i hi, ?_⟩
  have hstop := lanczosGo_stopped A k (ratSqrt (A.n : ℚ) * rtol) orth ncv k
    { v := q, alpha := alpha, beta := beta,
      V := Function.update V 0 (normalized A.n q), pos := posInit ncv,
      j := 0, stopped := false,
      alphaWrites := [], betaWrites := [], colWrites := [0] }
    rfl hk
  have hcount := lanczosGo_colW_count A k (ratSqrt (A.n : ℚ) * rtol) orth ncv
    k
    { v := q, alpha := alpha, beta := beta,
      V := Function.update V 0 (normalized A.n q), pos := posInit ncv,
      j := 0, stopped := false,
      alphaWrites := [], betaWrites := [], colWrites := [0] }
    rfl hstop
  simp only [List.length_cons, List.length_nil] at hcount
  omega

/-- C5 witness: the amended theorem at the `runEarly` instance. -/
theorem c5_tails_retained_after_stop_ex :
    1 ≤ 2 ∧ runEarly.colWrites.length = runEarly.j :=
  ⟨by norm_num, (c5_tails_retained_after_stop zeroOp1 (fun _ => 1) 2 1 0
    (fun _ => 0) betaPrior (fun _ _ => 0) 2 (by norm_num)).2.2⟩

/-- C6: at every step, the value stored to `alpha[j]` is the inner product
of the current column with the *partially updated* vector
`A·q_c − beta[j]·q_p` (the subtraction of `beta[j] q_p` happens before the
dot product, the subtraction of `alpha[j] q_c` after) — and on a concrete
state with `beta[j] ≠ 0` and `⟨q_c, q_p⟩ ≠ 0` this differs from
`⟨q_c, A·q_c⟩`. -/
theorem c6_alpha_is_partially_updated_rayleigh :
    (∀ (A : LinOp) (k : ℕ) (rt : ℚ) (orth ncv : ℕ) (s : LState),
      ((lanczosStep A k rt orth ncv s).1).alpha s.j =
        dotProd A.n (s.V s.pos.2.1)
          (fun i => A.matvec (s.V s.pos.2.1) i - s.beta s.j * s.V s.pos.1 i)) ∧
    ((lanczosStep idOp1 5 0 0 2 stateC6).1).alpha 0 ≠
      dotProd idOp1.n (stateC6.V 0) (idOp1.matvec (stateC6.V 0)) := by
  exact ⟨fun A k rt orth ncv s => lanczosStep_alpha_self A k rt orth ncv s,
    by decide⟩

/-- C7: `pos` starts at `(ncv-1, 0, 1)` and, iterating the source's rotate
and `pos[2] = mod(j+2, ncv)` update once per completed step, the triple at
the start of step `j ≥ 1` is `((j-1) mod ncv, j mod ncv, (j+1) mod ncv)`,
with all three entries below `ncv`. -/
theorem c7_pos_triple_invariant (ncv j : ℕ) (h2 : 2 ≤ ncv) (hj : 1 ≤ j) :
    posIter ncv 0 = (ncv - 1, 0, 1) ∧
    posIter ncv j = ((j - 1) % ncv, j % ncv, (j + 1) % ncv) ∧
    (j - 1) % ncv < ncv ∧ j % ncv < ncv ∧ (j + 1) % ncv < ncv := by
  obtain ⟨i, rfl⟩ : ∃ i, j = i + 1 := ⟨j - 1, by omega⟩
  exact ⟨rfl, posIter_closed ncv h2 i,
    Nat.mod_lt _ (by omega), Nat.mod_lt _ (by omega), Nat.mod_lt _ (by omega)⟩

/-- C7 witness: the invariant at `ncv = 3`, `j = 5`. -/
theorem c7_pos_triple_invariant_ex :
    2 ≤ 3 ∧ 1 ≤ 5 ∧ posIter 3 5 = (1, 2, 0) :=
  ⟨by norm_num, by norm_num,
    (c7_pos_triple_invariant 3 5 (by norm_num) (by norm_num)).2.1⟩

/-- C8: `lanczos_quadrature` hands `T(alpha, beta)` to the external
eigensolver (modelled from the spec's black-box contract: an orthogonal `S`
and ascending `theta` with `T = S Λ Sᵀ`) and emits `nodes = theta`,
`weights = (first components of S)²`.  Then the nodes are exactly the `k`
eigenvalues of `T` in ascending order (each column of `S` is an eigenvector
for the matching node), and the weights are non-negative and sum to 1
(exactly, in the real-arithmetic model — within a few ulp in floating
point). -/
theorem c8_quadrature_nodes_weights (k : ℕ) [NeZero k] (_hk : 2 ≤ k)
    (alpha beta : ℕ → ℚ) (theta : Fin k → ℚ)
    (S : Matrix (Fin k) (Fin k) ℚ)
    (hS1 : S * S.transpose = 1) (hS2 : S.transpose * S = 1)
    (hdec : tridiagT k alpha beta = S * Matrix.diagonal theta * S.transpose)
    (hmono : Monotone theta) :
    (∀ i j : Fin k, i ≤ j → quadNodes k theta i ≤ quadNodes k theta j) ∧
    (∀ i, 0 ≤ quadWeights k S i) ∧
    (∑ i, quadWeights k S i) = 1 ∧
    (∀ i, Matrix.mulVec (tridiagT k alpha beta) (fun r => S r i) =
      theta i • fun r => S r i) := by
  refine ⟨fun i j hij => hmono hij, fun i => mul_self_nonneg _, ?_, ?_⟩
  · have hsum : (∑ i, quadWeights k S i) = (S * S.transpose) 0 0 := by
      rw [Matrix.mul_apply]
      simp [quadWeights, Matrix.transpose_apply]
    rw [hsum, hS1, Matrix.one_apply_eq]
  · intro i
    rw [hdec]
    have hsingle : Matrix.mulVec S.transpose (fun r => S r i) =
        Pi.single i (1 : ℚ) := by
      funext j
      have hentry : Matrix.mulVec S.transpose (fun r => S r i) j =
          (S.transpose * S) j i := by
        simp [Matrix.mulVec, Matrix.mul_apply, Matrix.dotProduct,
          Matrix.transpose_apply]
      rw [hentry, hS2, Matrix.one_apply, Pi.single_apply]
    calc Matrix.mulVec (S * Matrix.diagonal theta * S.transpose)
          (fun r => S r i)
        = Matrix.mulVec S (Matrix.mulVec (Matrix.diagonal theta)
            (Matrix.mulVec S.transpose (fun r => S r i))) := by
          rw [← Matrix.mulVec_mulVec, ← Matrix.mulVec_mulVec]
      _ = Matrix.mulVec S (Matrix.mulVec (Matrix.diagonal theta)
            (Pi.single i 1)) := by rw [hsingle]
      _ = Matrix.mulVec S (Pi.single i (theta i * 1)) := by
            rw [Matrix.diagonal_mulVec_single]
      _ = fun r => S r i * (theta i * 1) := by rw [Matrix.mulVec_single]
      _ = theta i • fun r => S r i := by
            funext r
            simp [mul_comm]

/-- C8 witness: the theorem at `k = 2`, `T = diag(1, 2)`, `S = I`,
`theta = (1, 2)`: the weights sum to 1. -/
theorem c8_quadrature_nodes_weights_ex :
    2 ≤ 2 ∧ (∑ i, quadWeights 2 (1 : Matrix (Fin 2) (Fin 2) ℚ) i) = 1 :=
  ⟨by norm_num,
    (c8_quadrature_nodes_weights 2 (by norm_num) alphaQuad (fun _ => 0)
      thetaQuad 1 (by simp) (by simp)
      (by
        ext i j
        fin_cases i <;> fin_cases j <;>
          simp [tridiagT, alphaQuad, thetaQuad, Matrix.diagonal,
            Matrix.one_apply])
      (by
        intro a b hab
        fin_cases a <;> fin_cases b <;> simp_all [thetaQuad])).2.2.1⟩

/-- C10: whenever `orth > 0`, the loop body re-orthogonalizes the new
vector with the two-pass flag set unconditionally (`orth_vector(…, true)`),
i.e. the resulting work vector is the *double* modified-Gram-Schmidt pass
over the three-term residual; the single-pass variant is never used. -/
theorem c10_reorth_always_two_pass (A : LinOp) (k : ℕ) (rt : ℚ)
    (orth ncv : ℕ) (s : LState) (h : 0 < orth) :
    ((lanczosStep A k rt orth ncv s).1).v =
      orthPass A.n ncv s.V s.pos.2.1 orth
        (orthPass A.n ncv s.V s.pos.2.1 orth
          (fun i => A.matvec (s.V s.pos.2.1) i - s.beta s.j * s.V s.pos.1 i -
            dotProd A.n (s.V s.pos.2.1)
              (fun i2 => A.matvec (s.V s.pos.2.1) i2 -
                s.beta s.j * s.V s.pos.1 i2) * s.V s.pos.2.1 i)) := by
  rw [lanczosStep_v_of_orth A k rt orth ncv s h]
  rfl

/-- C10 witness: the theorem at a concrete state with `orth = 1`. -/
theorem c10_reorth_always_two_pass_ex :
    0 < 1 ∧
    ((lanczosStep idOp1 5 0 1 2 stateC6).1).v =
      orthPass idOp1.n 2 stateC6.V stateC6.pos.2.1 1
        (orthPass idOp1.n 2 stateC6.V stateC6.pos.2.1 1
          (fun i => idOp1.matvec (stateC6.V stateC6.pos.2.1) i -
            stateC6.beta stateC6.j * stateC6.V stateC6.pos.1 i -
            dotProd idOp1.n (stateC6.V stateC6.pos.2.1)
              (fun i2 => idOp1.matvec (stateC6.V stateC6.pos.2.1) i2 -
                stateC6.beta stateC6.j * stateC6.V stateC6.pos.1 i2) *
              stateC6.V stateC6.pos.2.1 i)) :=
  ⟨by norm_num, c10_reorth_always_two_pass idOp1 5 0 1 2 stateC6 (by norm_num)⟩

end Pyimate
